import Mathlib

/-!
Shallow embedding of the `sequtil` merge core (src/merge.cpp, src/util.cpp).

C machine integers (`int`, `char`) are modelled as `Int`/`Nat`: all values the
program manipulates (columns, insertion indices, 4-bit nucleotide masks,
coverage counts, contribution counts) stay far from any overflow boundary, so
wrap-around is irrelevant and plain integers are faithful.

Arrays indexed by a monotonically advancing cursor are modelled as list
suffixes: `xs.data[xidx..]` becomes the suffix list passed to the recursive
walk functions.  `malloc` is modelled by an explicit `allocOk : Bool` oracle:
`allocOk = false` means the single allocation in `merge_two` returns NULL.
-/

/-- `enum cmp_t { LT, GT, EQ }` from merge.cpp. -/
inductive cmp_t where
  | LT : cmp_t
  | GT : cmp_t
  | EQ : cmp_t
deriving DecidableEq, Repr

/-- `res_t` (declared in merge.hpp, used in merge.cpp): `SUCCESS`, `FAILURE`
(the `ABORT` macro's return value, i.e. "no match"), and `ERROR` (tested for
in `merge_clusters`). -/
inductive res_t where
  | SUCCESS : res_t
  | FAILURE : res_t
  | ERROR : res_t
deriving DecidableEq, Repr

/-- `pos_t`: one position record — column, insertion index, 4-bit nucleotide
mask, coverage count. -/
structure pos_t where
  col : Int
  ins : Int
  nuc : Nat
  cov : Int
deriving DecidableEq, Repr

/-- `aligned_t`: a cluster.  The C struct carries a `len` field that always
equals the length of `data`; the model uses `data.length` directly. -/
structure aligned_t where
  data : List pos_t
  lpos : Int
  rpos : Int
  ncontrib : Int
deriving DecidableEq, Repr

/-- The configuration fields of `args_t` read by merge.cpp. -/
structure args_t where
  min_overlap : Int
  min_reads : Int
  tol_gaps : Bool
  tol_ambigs : Bool
deriving DecidableEq, Repr

/-- `pos_cmp` from merge.cpp lines 25-39, branch for branch.  Note the fourth
branch tests `y.ins < x.ins` (not `y.ins > x.ins`), exactly as the source. -/
def pos_cmp (x y : pos_t) : cmp_t :=
  if x.col > y.col then .GT
  else if y.col > x.col then .LT
  else if x.ins > y.ins then .GT
  else if y.ins < x.ins then .LT
  else .EQ

/-- `ncontrib_cmp` from merge.cpp lines 42-45. -/
def ncontrib_cmp (x y : aligned_t) : Bool :=
  x.ncontrib > y.ncontrib

/-- The nucleotide-compatibility test on merge.cpp lines 135-136:
`x.nuc == y.nuc || (args.tol_ambigs && x.nuc & y.nuc)`. -/
def nuc_compat (tol_ambigs : Bool) (xn yn : Nat) : Prop :=
  xn = yn ∨ (tol_ambigs ∧ xn &&& yn ≠ 0)

instance (ta : Bool) (xn yn : Nat) : Decidable (nuc_compat ta xn yn) := by
  unfold nuc_compat; infer_instance

/-- The overhang-skip loop of merge.cpp lines 98-108 (the `cmp == LT` case):
entered with `pos_cmp xd.head y = LT`; advances the cursor while the current
comparison is `LT` and at least one more element exists.  Returns the number
of records skipped, the remaining suffix, and the final value of `cmp`. -/
def skip_x (y : pos_t) : List pos_t → Nat × List pos_t × cmp_t
  | [] => (0, [], .LT)
  | [x] => (0, [x], .LT)
  | x :: x2 :: rest =>
    match pos_cmp x2 y with
    | .LT =>
      let r := skip_x y (x2 :: rest)
      (r.1 + 1, r.2)
    | c => (1, x2 :: rest, c)

/-- The overhang-skip loop of merge.cpp lines 109-119 (the `cmp == GT` case),
advancing the `ys` cursor while `pos_cmp x ys.head = GT`. -/
def skip_y (x : pos_t) : List pos_t → Nat × List pos_t × cmp_t
  | [] => (0, [], .GT)
  | [y] => (0, [y], .GT)
  | y :: y2 :: rest =>
    match pos_cmp x y2 with
    | .GT =>
      let r := skip_y x (y2 :: rest)
      (r.1 + 1, r.2)
    | c => (1, y2 :: rest, c)

/-- Merge.cpp lines 92-119: the initial comparison and the overhang
disposal, including the two `ABORT( "no gaps in ..." )` checks after each
skip loop.  Returns `none` on abort, otherwise the already-counted merged
length (`mlen += xidx` / `mlen += yidx`) and both remaining suffixes. -/
def overhang (tol_gaps : Bool) (xd yd : List pos_t) :
    Option (Nat × List pos_t × List pos_t) :=
  match xd, yd with
  | x :: _, y :: _ =>
    match pos_cmp x y with
    | .LT =>
      let r := skip_x y xd
      if r.2.2 = cmp_t.GT ∧ ¬tol_gaps then none else some (r.1, r.2.1, yd)
    | .GT =>
      let r := skip_y x yd
      if r.2.2 = cmp_t.GT ∧ ¬tol_gaps then none else some (r.1, xd, r.2.1)
    | .EQ => some (0, xd, yd)
  | _, _ => none

/-- The overlap-computation loop of merge.cpp lines 122-144.  Each iteration
increments `mlen`; `LT`/`GT` advance one cursor (aborting when gaps are not
tolerated), `EQ` with compatible nucleotides advances both and increments
`overlap`, `EQ` with incompatible nucleotides aborts (`ABORT( "mismatch" )`).
Returns `none` on abort, otherwise `(overlap, steps, xrem, yrem)` where
`steps` is the number of loop iterations (the amount added to `mlen`) and
`xrem`, `yrem` are the unconsumed suffixes (at least one is empty). -/
def walk (tol_gaps tol_ambigs : Bool) :
    List pos_t → List pos_t → Option (Nat × Nat × List pos_t × List pos_t)
  | [], yd => some (0, 0, [], yd)
  | x :: xd, [] => some (0, 0, x :: xd, [])
  | x :: xd, y :: yd =>
    match pos_cmp x y with
    | .LT =>
      if ¬tol_gaps then none
      else (walk tol_gaps tol_ambigs xd (y :: yd)).map
        (fun r => (r.1, r.2.1 + 1, r.2.2))
    | .GT =>
      if ¬tol_gaps then none
      else (walk tol_gaps tol_ambigs (x :: xd) yd).map
        (fun r => (r.1, r.2.1 + 1, r.2.2))
    | .EQ =>
      if nuc_compat tol_ambigs x.nuc y.nuc then
        (walk tol_gaps tol_ambigs xd yd).map
          (fun r => (r.1 + 1, r.2.1 + 1, r.2.2))
      else none
termination_by xd yd => xd.length + yd.length

/-- The combined record built on merge.cpp lines 171-173 when the two current
positions compare `EQ`: `x` with coverage `x.cov + y.cov` and nucleotide
`MIN( x.nuc, y.nuc )` (plain numeric minimum). -/
def merge_rec (x y : pos_t) : pos_t :=
  { x with cov := x.cov + y.cov, nuc := min x.nuc y.nuc }

/-- The construction re-walk of merge.cpp lines 164-185: the merge-join loop
emitting `x` on `LT`, `y` on `GT`, the combined record on `EQ`, followed by
the copy of whichever suffix remains. -/
def emit_walk : List pos_t → List pos_t → List pos_t
  | [], yd => yd
  | x :: xd, [] => x :: xd
  | x :: xd, y :: yd =>
    match pos_cmp x y with
    | .LT => x :: emit_walk xd (y :: yd)
    | .GT => y :: emit_walk (x :: xd) yd
    | .EQ => merge_rec x y :: emit_walk xd yd
termination_by xd yd => xd.length + yd.length

/-- The result of `merge_two`: the returned `res_t`, the `merged` output
parameter (populated only on `SUCCESS`), and the final values of the local
variables `overlap` and `mlen` (0 on the abort paths, where the C locals are
dead). -/
structure mergeOut where
  res : res_t
  merged : Option aligned_t
  overlap : Nat
  mlen : Nat
deriving DecidableEq, Repr

/-- The `mergeOut` produced by every `ABORT` path. -/
def failOut : mergeOut :=
  { res := .FAILURE, merged := none, overlap := 0, mlen := 0 }

/-- `merge_two` from merge.cpp lines 70-195.  In source order: the empty-input
check, the no-opportunity fast rejection, the overhang disposal, the overlap
walk, the `overlap < args.min_overlap` check, the remainder accounting
(`mlen += xs.len - xidx` / `mlen += ys.len - yidx`, here the sum of the two
remaining suffix lengths, at least one of which is zero), the allocation
(modelled by `allocOk`; note that on allocation failure the `ABORT` macro
returns `FAILURE`), and the construction re-walk.  The C code stores `mlen`
into `merged.len`; claim C10 establishes that the emitted data has exactly
that length. -/
def merge_two (args : args_t) (xs ys : aligned_t) (allocOk : Bool) : mergeOut :=
  if xs.data.length = 0 ∨ ys.data.length = 0 then failOut
  else if xs.rpos < ys.lpos + args.min_overlap ∧
          ys.rpos < xs.lpos + args.min_overlap then failOut
  else
    match overhang args.tol_gaps xs.data ys.data with
    | none => failOut
    | some (skipped, xd, yd) =>
      match walk args.tol_gaps args.tol_ambigs xd yd with
      | none => failOut
      | some (ov, steps, xrem, yrem) =>
        if (ov : Int) < args.min_overlap then failOut
        else
          let mlen := skipped + steps + xrem.length + yrem.length
          if ¬allocOk then
            { res := .FAILURE, merged := none, overlap := ov, mlen := mlen }
          else
            { res := .SUCCESS,
              merged := some
                { data := emit_walk xs.data ys.data,
                  lpos := min xs.lpos ys.lpos,
                  rpos := max xs.rpos ys.rpos,
                  ncontrib := xs.ncontrib + ys.ncontrib },
              overlap := ov,
              mlen := mlen }

/-- `nuc2bits` from util.cpp lines 7-26. -/
def nuc2bits (nuc : Char) : Nat :=
  if nuc = 'A' then 1
  else if nuc = 'C' then 2
  else if nuc = 'G' then 4
  else if nuc = 'T' then 8
  else if nuc = 'M' then 1 ||| 2
  else if nuc = 'R' then 1 ||| 4
  else if nuc = 'W' then 1 ||| 8
  else if nuc = 'S' then 2 ||| 4
  else if nuc = 'Y' then 2 ||| 8
  else if nuc = 'K' then 4 ||| 8
  else if nuc = 'V' then 1 ||| 2 ||| 4
  else if nuc = 'H' then 1 ||| 2 ||| 8
  else if nuc = 'D' then 1 ||| 4 ||| 8
  else if nuc = 'B' then 2 ||| 4 ||| 8
  else 1 ||| 2 ||| 4 ||| 8

/-- One insertion step of the model of `sort( clusters.begin(), clusters.end(),
ncontrib_cmp )` (merge.cpp line 211). -/
def sort_insert (a : aligned_t) : List aligned_t → List aligned_t
  | [] => [a]
  | b :: rest => if ncontrib_cmp a b then a :: b :: rest else b :: sort_insert a rest

/-- Model of `std::sort` with comparator `ncontrib_cmp` (merge.cpp line 211):
descending by `ncontrib`.  `std::sort` leaves the order of ties unspecified;
this deterministic insertion sort is one admissible refinement, and the
claims about `merge_clusters` settled here do not depend on the tie order. -/
def sort_clusters : List aligned_t → List aligned_t
  | [] => []
  | a :: rest => sort_insert a (sort_clusters rest)

/-- The doubly-nested scan of merge.cpp lines 213-233, with the `goto begin`
control flow made explicit: `i` is the index of iterator `a`, `j` of `b`.
On `SUCCESS` the merged cluster replaces slot `i`, slot `j` is erased, the
merge counter is incremented and the inner scan restarts at `j = i + 1`
(`goto begin`); on `ERROR` the whole aggregation stops (`return -1`, here
`none`); otherwise `j` advances.  When the inner scan is exhausted, cluster
`i` is counted if `ncontrib >= args.min_reads` and `i` advances.  Returns
`(nclusters, final collection, number of successful merges)`. -/
def scan (args : args_t) (allocOk : Bool) (cl : List aligned_t)
    (i j ncl merges : Nat) : Option (Nat × List aligned_t × Nat) :=
  if hi : i < cl.length then
    if hj : j < cl.length then
      let r := merge_two args cl[i] cl[j] allocOk
      match r.res with
      | .ERROR => none
      | .SUCCESS =>
        scan args allocOk ((cl.set i (r.merged.getD cl[i])).eraseIdx j)
          i (i + 1) ncl (merges + 1)
      | .FAILURE => scan args allocOk cl i (j + 1) ncl merges
    else
      scan args allocOk cl (i + 1) (i + 2)
        (if cl[i].ncontrib ≥ args.min_reads then ncl + 1 else ncl) merges
  else some (ncl, cl, merges)
termination_by (cl.length, cl.length - i, cl.length - j)
decreasing_by
  · simp only [List.length_eraseIdx, List.length_set, if_pos hj]
    left
    omega
  · right
    omega
  · right
    left
    omega

/-- `bits2nuc` from util.cpp lines 29-48. -/
def bits2nuc (bits : Nat) : Char :=
  if bits = 1 then 'A'
  else if bits = 2 then 'C'
  else if bits = 4 then 'G'
  else if bits = 8 then 'T'
  else if bits = 1 ||| 2 then 'M'
  else if bits = 1 ||| 4 then 'R'
  else if bits = 1 ||| 8 then 'W'
  else if bits = 2 ||| 4 then 'S'
  else if bits = 2 ||| 8 then 'Y'
  else if bits = 4 ||| 8 then 'K'
  else if bits = 1 ||| 2 ||| 4 then 'V'
  else if bits = 1 ||| 2 ||| 8 then 'H'
  else if bits = 1 ||| 4 ||| 8 then 'D'
  else if bits = 2 ||| 4 ||| 8 then 'B'
  else 'N'

theorem sort_insert_length (a : aligned_t) (l : List aligned_t) :
    (sort_insert a l).length = l.length + 1 := by
  induction l with
  | nil => rfl
  | cons b rest ih =>
    simp only [sort_insert]
    split
    · simp
    · simp [ih]

theorem sort_clusters_length (l : List aligned_t) :
    (sort_clusters l).length = l.length := by
  induction l with
  | nil => rfl
  | cons a rest ih => simp [sort_clusters, sort_insert_length, ih]

theorem scan_length (args : args_t) (allocOk : Bool)
    (cl : List aligned_t) (i j ncl merges : Nat) :
    ∀ out, scan args allocOk cl i j ncl merges = some out →
      out.2.1.length + out.2.2 = cl.length + merges := by
  induction cl, i, j, ncl, merges using scan.induct args allocOk with
  | case1 cl i j ncl merges hi hj r hres =>
    intro out h
    rw [scan] at h
    simp only [dif_pos hi, dif_pos hj,
      show (merge_two args cl[i] cl[j] allocOk).res = res_t.ERROR from hres] at h
    exact Option.noConfusion h
  | case2 cl i j ncl merges hi hj r hres ih =>
    intro out h
    rw [scan] at h
    simp only [dif_pos hi, dif_pos hj,
      show (merge_two args cl[i] cl[j] allocOk).res = res_t.SUCCESS from hres] at h
    have hlen := ih out h
    simp only [List.length_eraseIdx, List.length_set, if_pos hj] at hlen
    omega
  | case3 cl i j ncl merges hi hj r hres ih =>
    intro out h
    rw [scan] at h
    simp only [dif_pos hi, dif_pos hj,
      show (merge_two args cl[i] cl[j] allocOk).res = res_t.FAILURE from hres] at h
    exact ih out h
  | case4 cl i j ncl merges hi hj ih =>
    intro out h
    rw [scan] at h
    simp only [dif_pos hi, dif_neg hj] at h
    exact ih out h
  | case5 cl i j ncl merges hi =>
    intro out h
    rw [scan] at h
    rw [dif_neg hi] at h
    cases h
    rfl

/-- The outer repeat-until-stable loop of merge.cpp lines 208-236: sort, run
the doubly-nested scan, and repeat from scratch whenever the pass performed at
least one merge (`repeat = true` exactly when the pass's merge count is
positive).  Returns `(nclusters, final collection, total merges, passes)`;
`none` models `return -1`. -/
def merge_loop (args : args_t) (allocOk : Bool) (cl : List aligned_t) :
    Option (Nat × List aligned_t × Nat × Nat) :=
  match h : scan args allocOk (sort_clusters cl) 0 1 0 0 with
  | none => none
  | some out =>
    if hm : 0 < out.2.2 then
      match merge_loop args allocOk out.2.1 with
      | none => none
      | some out2 => some (out2.1, out2.2.1, out.2.2 + out2.2.2.1, out2.2.2.2 + 1)
    else some (out.1, out.2.1, out.2.2, 1)
termination_by cl.length
decreasing_by
  have hs := scan_length args allocOk (sort_clusters cl) 0 1 0 0 out h
  rw [sort_clusters_length] at hs
  omega

/-- The return value of `merge_clusters` (merge.cpp lines 198-237): the count
of surviving clusters with `ncontrib >= args.min_reads`, or `-1` on `ERROR`.
The final collection and the merge and pass counts are the remaining
components of `merge_loop`. -/
def merge_clusters (args : args_t) (allocOk : Bool)
    (clusters : List aligned_t) : Int :=
  match merge_loop args allocOk clusters with
  | none => -1
  | some out => (out.1 : Int)

theorem merge_two_ne_error (args : args_t) (xs ys : aligned_t)
    (allocOk : Bool) : (merge_two args xs ys allocOk).res ≠ res_t.ERROR := by
  unfold merge_two
  split
  · simp [failOut]
  split
  · simp [failOut]
  split
  · simp [failOut]
  split
  · simp [failOut]
  split
  · simp [failOut]
  split
  · simp
  · simp

theorem scan_ne_none (args : args_t) (allocOk : Bool)
    (cl : List aligned_t) (i j ncl merges : Nat) :
    scan args allocOk cl i j ncl merges ≠ none := by
  induction cl, i, j, ncl, merges using scan.induct args allocOk with
  | case1 cl i j ncl merges hi hj r hres =>
    exact absurd hres (merge_two_ne_error args cl[i] cl[j] allocOk)
  | case2 cl i j ncl merges hi hj r hres ih =>
    rw [scan]
    simp only [dif_pos hi, dif_pos hj,
      show (merge_two args cl[i] cl[j] allocOk).res = res_t.SUCCESS from hres]
    exact ih
  | case3 cl i j ncl merges hi hj r hres ih =>
    rw [scan]
    simp only [dif_pos hi, dif_pos hj,
      show (merge_two args cl[i] cl[j] allocOk).res = res_t.FAILURE from hres]
    exact ih
  | case4 cl i j ncl merges hi hj ih =>
    rw [scan]
    simp only [dif_pos hi, dif_neg hj]
    exact ih
  | case5 cl i j ncl merges hi =>
    rw [scan]
    simp [dif_neg hi]

theorem merge_loop_ne_none (args : args_t) (allocOk : Bool)
    (cl : List aligned_t) : merge_loop args allocOk cl ≠ none := by
  induction cl using merge_loop.induct args allocOk with
  | case1 cl h =>
    exact absurd h (scan_ne_none args allocOk (sort_clusters cl) 0 1 0 0)
  | case2 cl out h hm hrec ih => exact absurd hrec ih
  | case3 cl out h hm out2 hrec ih =>
    rw [merge_loop]
    split
    · next heq => exact absurd heq (scan_ne_none args allocOk (sort_clusters cl) 0 1 0 0)
    · next out2b heq =>
      have hout : out = out2b := by
        rw [h] at heq
        exact Option.some.inj heq
      subst hout
      split
      · split
        · next heq2 => exact absurd heq2 ih
        · next o2 heq2 => exact fun hc => Option.noConfusion hc
      · next hm2 => exact absurd hm hm2
  | case4 cl out h hm =>
    rw [merge_loop]
    split
    · next heq => exact absurd heq (scan_ne_none args allocOk (sort_clusters cl) 0 1 0 0)
    · next out2b heq =>
      have hout : out = out2b := by
        rw [h] at heq
        exact Option.some.inj heq
      subst hout
      split
      · next hm2 => exact absurd hm2 hm
      · exact fun hc => Option.noConfusion hc

/-- The 15 canonical IUPAC symbols handled by the `switch` in util.cpp
('N' is handled by the `default` branches on both sides). -/
def iupac : List Char :=
  ['A', 'C', 'G', 'T', 'M', 'R', 'W', 'S', 'Y', 'K', 'V', 'H', 'D', 'B', 'N']

/-- C9: `nuc2bits` maps each of the 15 IUPAC symbols to a distinct nonzero
4-bit mask and `bits2nuc` is a left inverse on that set; every other symbol
encodes to the full mask 15, and `bits2nuc` of the all-ones mask or of any
mask not produced by a canonical symbol yields 'N'. -/
theorem nuc_bits_roundtrip :
    ((iupac.map nuc2bits).Nodup ∧ ∀ c ∈ iupac, nuc2bits c ≠ 0 ∧ nuc2bits c < 16) ∧
    (∀ c ∈ iupac, bits2nuc (nuc2bits c) = c) ∧
    (∀ c : Char, c ∉ iupac → nuc2bits c = 15) ∧
    bits2nuc 15 = 'N' ∧
    (∀ m : Nat, m ∉ iupac.map nuc2bits → bits2nuc m = 'N') := by
  refine ⟨by decide, by decide, ?_, by decide, ?_⟩
  · intro c hc
    have n1 : ¬(c = 'A') := fun h => hc (h ▸ by decide)
    have n2 : ¬(c = 'C') := fun h => hc (h ▸ by decide)
    have n3 : ¬(c = 'G') := fun h => hc (h ▸ by decide)
    have n4 : ¬(c = 'T') := fun h => hc (h ▸ by decide)
    have n5 : ¬(c = 'M') := fun h => hc (h ▸ by decide)
    have n6 : ¬(c = 'R') := fun h => hc (h ▸ by decide)
    have n7 : ¬(c = 'W') := fun h => hc (h ▸ by decide)
    have n8 : ¬(c = 'S') := fun h => hc (h ▸ by decide)
    have n9 : ¬(c = 'Y') := fun h => hc (h ▸ by decide)
    have n10 : ¬(c = 'K') := fun h => hc (h ▸ by decide)
    have n11 : ¬(c = 'V') := fun h => hc (h ▸ by decide)
    have n12 : ¬(c = 'H') := fun h => hc (h ▸ by decide)
    have n13 : ¬(c = 'D') := fun h => hc (h ▸ by decide)
    have n14 : ¬(c = 'B') := fun h => hc (h ▸ by decide)
    simp only [nuc2bits, n1, n2, n3, n4, n5, n6, n7, n8, n9, n10, n11, n12,
      n13, n14, if_false]
    decide
  · intro m hm
    have n1 : ¬(m = 1) := fun h => hm (h ▸ by decide)
    have n2 : ¬(m = 2) := fun h => hm (h ▸ by decide)
    have n3 : ¬(m = 4) := fun h => hm (h ▸ by decide)
    have n4 : ¬(m = 8) := fun h => hm (h ▸ by decide)
    have n5 : ¬(m = 1 ||| 2) := fun h => hm (h ▸ by decide)
    have n6 : ¬(m = 1 ||| 4) := fun h => hm (h ▸ by decide)
    have n7 : ¬(m = 1 ||| 8) := fun h => hm (h ▸ by decide)
    have n8 : ¬(m = 2 ||| 4) := fun h => hm (h ▸ by decide)
    have n9 : ¬(m = 2 ||| 8) := fun h => hm (h ▸ by decide)
    have n10 : ¬(m = 4 ||| 8) := fun h => hm (h ▸ by decide)
    have n11 : ¬(m = 1 ||| 2 ||| 4) := fun h => hm (h ▸ by decide)
    have n12 : ¬(m = 1 ||| 2 ||| 8) := fun h => hm (h ▸ by decide)
    have n13 : ¬(m = 1 ||| 4 ||| 8) := fun h => hm (h ▸ by decide)
    have n14 : ¬(m = 2 ||| 4 ||| 8) := fun h => hm (h ▸ by decide)
    simp only [bits2nuc, n1, n2, n3, n4, n5, n6, n7, n8, n9, n10, n11, n12,
      n13, n14, if_false]

/-- Witness for C9 at concrete inputs. -/
theorem nuc_bits_roundtrip_inst :
    bits2nuc (nuc2bits 'M') = 'M' ∧ nuc2bits 'Z' = 15 ∧ bits2nuc 0 = 'N' :=
  ⟨nuc_bits_roundtrip.2.1 'M' (by decide),
   nuc_bits_roundtrip.2.2.1 'Z' (by decide),
   nuc_bits_roundtrip.2.2.2.2 0 (by decide)⟩

/-- C1: the tie-break of `pos_cmp` is not antisymmetric.  With equal columns
and `x.ins < y.ins` neither tie branch fires (the fourth branch tests
`y.ins < x.ins`, a slip for `y.ins > x.ins`), so `pos_cmp x y = EQ` while
`pos_cmp y x = GT`: `EQ` holds in one direction only, and for a pair whose
key pairs are not identical.  This contradicts the comparator's own comment
("test the column, then the insertion, then equal") and the spec's
requirement of a strict total order. -/
theorem pos_cmp_tiebreak_not_antisymmetric :
    pos_cmp ⟨0, 0, 1, 0⟩ ⟨0, 1, 1, 0⟩ = cmp_t.EQ ∧
    pos_cmp ⟨0, 1, 1, 0⟩ ⟨0, 0, 1, 0⟩ = cmp_t.GT ∧
    (⟨0, 0, 1, 0⟩ : pos_t) ≠ ⟨0, 1, 1, 0⟩ := by
  decide

/-- Helper: on `SUCCESS`, `merge_two` populates `merged` with the emitted
position data, the min/max bounds and the summed contribution count. -/
theorem merge_two_success_fields (args : args_t) (xs ys : aligned_t)
    (allocOk : Bool) (h : (merge_two args xs ys allocOk).res = res_t.SUCCESS) :
    ∃ m, (merge_two args xs ys allocOk).merged = some m ∧
      m.data = emit_walk xs.data ys.data ∧
      m.lpos = min xs.lpos ys.lpos ∧
      m.rpos = max xs.rpos ys.rpos ∧
      m.ncontrib = xs.ncontrib + ys.ncontrib := by
  revert h
  unfold merge_two
  repeat' split
  all_goals intro h
  all_goals simp [failOut] at h ⊢

/-- Helper: every pass of `merge_loop` accounts for the collection size
(`final length + merges performed = initial length`) and the pass count is
between 1 and `initial length + 1`. -/
theorem merge_loop_spec (args : args_t) (allocOk : Bool) (cl : List aligned_t) :
    ∀ out, merge_loop args allocOk cl = some out →
      out.2.1.length + out.2.2.1 = cl.length ∧
      1 ≤ out.2.2.2 ∧ out.2.2.2 ≤ cl.length + 1 := by
  induction cl using merge_loop.induct args allocOk with
  | case1 cl h =>
    intro out hout
    rw [merge_loop] at hout
    split at hout
    · exact Option.noConfusion hout
    · next out2b heq =>
      rw [h] at heq
      exact Option.noConfusion heq
  | case2 cl out0 h hm hrec ih =>
    intro out hout
    rw [merge_loop] at hout
    split at hout
    · exact Option.noConfusion hout
    · next out2b heq =>
      rw [h] at heq
      cases Option.some.inj heq
      split at hout
      · split at hout
        · exact Option.noConfusion hout
        · next o2 heq2 =>
          have hs := scan_length args allocOk (sort_clusters cl) 0 1 0 0 out0 h
          rw [sort_clusters_length] at hs
          have hrec2 := ih o2 heq2
          cases Option.some.inj hout
          refine ⟨?_, ?_, ?_⟩ <;> simp_all <;> omega
      · next hm2 => exact absurd hm hm2
  | case3 cl out0 h hm out2 hrec ih =>
    intro out hout
    rw [merge_loop] at hout
    split at hout
    · exact Option.noConfusion hout
    · next out2b heq =>
      rw [h] at heq
      cases Option.some.inj heq
      split at hout
      · split at hout
        · exact Option.noConfusion hout
        · next o2 heq2 =>
          have hs := scan_length args allocOk (sort_clusters cl) 0 1 0 0 out0 h
          rw [sort_clusters_length] at hs
          have hrec2 := ih o2 heq2
          cases Option.some.inj hout
          refine ⟨?_, ?_, ?_⟩ <;> simp_all <;> omega
      · next hm2 => exact absurd hm hm2
  | case4 cl out0 h hm =>
    intro out hout
    rw [merge_loop] at hout
    split at hout
    · exact Option.noConfusion hout
    · next out2b heq =>
      rw [h] at heq
      cases Option.some.inj heq
      split at hout
      · next hm2 => exact absurd hm2 hm
      · have hs := scan_length args allocOk (sort_clusters cl) 0 1 0 0 out0 h
        rw [sort_clusters_length] at hs
        cases Option.some.inj hout
        refine ⟨?_, ?_, ?_⟩ <;> simp_all <;> omega

/-- C7: `merge_clusters` never increases the collection size, and the
difference between the initial and final collection sizes equals the number
of successful merges performed. -/
theorem aggregation_size_accounting (args : args_t) (allocOk : Bool)
    (cl : List aligned_t) :
    ∃ ncl fin merges passes,
      merge_loop args allocOk cl = some (ncl, fin, merges, passes) ∧
      merge_clusters args allocOk cl = (ncl : Int) ∧
      fin.length + merges = cl.length ∧
      fin.length ≤ cl.length := by
  obtain ⟨out, hout⟩ :=
    Option.ne_none_iff_exists'.mp (merge_loop_ne_none args allocOk cl)
  obtain ⟨h1, h2, h3⟩ := merge_loop_spec args allocOk cl out hout
  refine ⟨out.1, out.2.1, out.2.2.1, out.2.2.2, by rw [hout], ?_, by omega, by omega⟩
  simp [merge_clusters, hout]

/-- C8: `merge_clusters` terminates on every input — the model's convergence
loop is a total function, whose total number of successful merges is bounded
by the initial collection size and whose number of passes is bounded by the
initial collection size plus one. -/
theorem aggregation_terminates (args : args_t) (allocOk : Bool)
    (cl : List aligned_t) :
    ∃ ncl fin merges passes,
      merge_loop args allocOk cl = some (ncl, fin, merges, passes) ∧
      merges ≤ cl.length ∧ 1 ≤ passes ∧ passes ≤ cl.length + 1 := by
  obtain ⟨out, hout⟩ :=
    Option.ne_none_iff_exists'.mp (merge_loop_ne_none args allocOk cl)
  obtain ⟨h1, h2, h3⟩ := merge_loop_spec args allocOk cl out hout
  exact ⟨out.1, out.2.1, out.2.2.1, out.2.2.2, by rw [hout], by omega, h2, h3⟩

/-- Concrete configuration used by witnesses: `min_overlap = 1`,
`min_reads = 1`, no gap tolerance, no ambiguity tolerance. -/
def argsA : args_t := ⟨1, 1, false, false⟩

/-- Concrete cluster: positions (1,0) and (2,0) with nucleotides A and C. -/
def xsA : aligned_t := ⟨[⟨1, 0, 1, 5⟩, ⟨2, 0, 2, 5⟩], 1, 2, 1⟩

/-- Concrete cluster sharing both positions and nucleotides with `xsA`. -/
def ysA : aligned_t := ⟨[⟨1, 0, 1, 3⟩, ⟨2, 0, 2, 3⟩], 1, 2, 1⟩

/-- The merged cluster produced from `xsA` and `ysA`. -/
def mA : aligned_t := ⟨[⟨1, 0, 1, 8⟩, ⟨2, 0, 2, 8⟩], 1, 2, 2⟩

/-- Evaluation of `merge_two` on the concrete pair with the allocation
succeeding. -/
theorem mergeA_eval : merge_two argsA xsA ysA true =
    { res := res_t.SUCCESS, merged := some mA, overlap := 2, mlen := 2 } := by
  simp [merge_two, overhang, walk, emit_walk, skip_x, skip_y, pos_cmp,
    nuc_compat, merge_rec, failOut, argsA, xsA, ysA, mA]

/-- Evaluation of `merge_two` on the concrete pair with the allocation
failing: the `ABORT( "memory allocation error" )` path returns `FAILURE`. -/
theorem mergeA_eval_alloc_fail : merge_two argsA xsA ysA false =
    { res := res_t.FAILURE, merged := none, overlap := 2, mlen := 2 } := by
  simp [merge_two, overhang, walk, emit_walk, skip_x, skip_y, pos_cmp,
    nuc_compat, merge_rec, failOut, argsA, xsA, ysA]

/-- C6: on every `SUCCESS` outcome of `merge_two`, the merged cluster's
left bound equals the minimum of the two inputs' left bounds, its right
bound equals the maximum of the two inputs' right bounds, and its
contribution count equals the sum of the two inputs' contribution counts. -/
theorem merged_bounds_and_contrib (args : args_t) (xs ys : aligned_t)
    (allocOk : Bool) (m : aligned_t)
    (h : (merge_two args xs ys allocOk).res = res_t.SUCCESS)
    (hm : (merge_two args xs ys allocOk).merged = some m) :
    m.lpos = min xs.lpos ys.lpos ∧ m.rpos = max xs.rpos ys.rpos ∧
    m.ncontrib = xs.ncontrib + ys.ncontrib := by
  obtain ⟨m2, hm2, _, h1, h2, h3⟩ := merge_two_success_fields args xs ys allocOk h
  rw [hm] at hm2
  cases Option.some.inj hm2
  exact ⟨h1, h2, h3⟩

/-- Witness for C6 at the concrete mergeable pair. -/
theorem merged_bounds_and_contrib_inst :
    mA.lpos = min xsA.lpos ysA.lpos ∧ mA.rpos = max xsA.rpos ysA.rpos ∧
    mA.ncontrib = xsA.ncontrib + ysA.ncontrib :=
  merged_bounds_and_contrib argsA xsA ysA true mA
    (by rw [mergeA_eval]) (by rw [mergeA_eval])

/-- C4: during the overlap walk, when the two current records compare `EQ`
the step counts as overlap (incrementing the overlap counter and consuming
both records) if and only if the nucleotide codes are exactly equal or
`tol_ambigs` is set and their bitwise AND is nonzero; otherwise the walk
aborts immediately (`ABORT( "mismatch" )`), with no recovery. -/
theorem walk_eq_step (tg ta : Bool) (x y : pos_t) (xd yd : List pos_t)
    (heq : pos_cmp x y = cmp_t.EQ) :
    (nuc_compat ta x.nuc y.nuc →
      walk tg ta (x :: xd) (y :: yd) =
        (walk tg ta xd yd).map (fun r => (r.1 + 1, r.2.1 + 1, r.2.2))) ∧
    (¬nuc_compat ta x.nuc y.nuc → walk tg ta (x :: xd) (y :: yd) = none) := by
  constructor <;> intro hc <;> rw [walk] <;> simp [heq, hc]

/-- Witness for C4: a compatible and an incompatible equal-position pair. -/
theorem walk_eq_step_inst :
    walk false false [⟨1, 0, 1, 0⟩] [⟨1, 0, 2, 0⟩] = none ∧
    walk false false [⟨1, 0, 1, 0⟩] [⟨1, 0, 1, 0⟩] =
      (walk false false ([] : List pos_t) ([] : List pos_t)).map
        (fun r => (r.1 + 1, r.2.1 + 1, r.2.2)) :=
  ⟨(walk_eq_step false false ⟨1, 0, 1, 0⟩ ⟨1, 0, 2, 0⟩ [] [] (by decide)).2
      (by decide),
   (walk_eq_step false false ⟨1, 0, 1, 0⟩ ⟨1, 0, 1, 0⟩ [] [] (by decide)).1
      (by decide)⟩

theorem merge_loop_no_repeat (args : args_t) (allocOk : Bool)
    (cl : List aligned_t) (out0 : Nat × List aligned_t × Nat)
    (h : scan args allocOk (sort_clusters cl) 0 1 0 0 = some out0)
    (hm : out0.2.2 = 0) :
    merge_loop args allocOk cl = some (out0.1, out0.2.1, out0.2.2, 1) := by
  rw [merge_loop]
  split
  · next heq =>
    rw [h] at heq
    exact Option.noConfusion heq
  · next out2b heq =>
    rw [h] at heq
    cases Option.some.inj heq
    rw [dif_neg (by omega)]

theorem mergeA_clusters_eval :
    merge_clusters argsA false [xsA, ysA] = 2 := by
  have h1 : merge_two argsA ysA xsA false =
      { res := res_t.FAILURE, merged := none, overlap := 2, mlen := 2 } := by
    simp [merge_two, overhang, walk, emit_walk, skip_x, skip_y, pos_cmp,
      nuc_compat, merge_rec, failOut, argsA, xsA, ysA]
  have hsort : sort_clusters [xsA, ysA] = [ysA, xsA] := by
    simp [sort_clusters, sort_insert, ncontrib_cmp, xsA, ysA]
  have hscan : scan argsA false [ysA, xsA] 0 1 0 0 = some (2, [ysA, xsA], 0) := by
    rw [scan]
    norm_num
    rw [h1]
    norm_num
    rw [scan]
    norm_num [ysA, argsA]
    rw [scan]
    norm_num [xsA, argsA]
    rw [scan]
    norm_num
  have hloop := merge_loop_no_repeat argsA false [xsA, ysA] (2, [ysA, xsA], 0)
    (by rw [hsort]; exact hscan) rfl
  simp [merge_clusters, hloop]

/-- C2 (code-bug evidence): `merge_two` never returns `ERROR` — the `ABORT`
macro used on the allocation-failure path (merge.cpp line 162) returns
`FAILURE`, the NoMatch variant.  On a concrete pair that merges successfully
when allocation succeeds, the same pair under allocation failure yields
`FAILURE`, and `merge_clusters` does not abort with `-1`: it keeps scanning
and returns the ordinary count 2.  The `res == ERROR` branch of
`merge_clusters` (merge.cpp lines 228-229) is unreachable. -/
theorem alloc_failure_not_error :
    (∀ (args : args_t) (xs ys : aligned_t) (allocOk : Bool),
      (merge_two args xs ys allocOk).res ≠ res_t.ERROR) ∧
    (merge_two argsA xsA ysA true).res = res_t.SUCCESS ∧
    (merge_two argsA xsA ysA false).res = res_t.FAILURE ∧
    merge_clusters argsA false [xsA, ysA] = 2 := by
  refine ⟨merge_two_ne_error, ?_, ?_, mergeA_clusters_eval⟩
  · rw [mergeA_eval]
  · rw [mergeA_eval_alloc_fail]

theorem walk_emit_length (tg ta : Bool) : ∀ (xd yd : List pos_t)
    (r : Nat × Nat × List pos_t × List pos_t), walk tg ta xd yd = some r →
    (emit_walk xd yd).length = r.2.1 + r.2.2.1.length + r.2.2.2.length := by
  intro xd0 yd0
  induction xd0, yd0 using walk.induct tg ta with
  | case1 yd =>
    intro r h
    rw [walk] at h
    cases Option.some.inj h
    rw [emit_walk]
    simp
  | case2 x xd =>
    intro r h
    rw [walk] at h
    cases Option.some.inj h
    rw [emit_walk]
    simp
  | case3 x xd y yd hlt htg =>
    intro r h
    rw [walk] at h
    simp only [hlt, if_pos htg] at h
    exact Option.noConfusion h
  | case4 x xd y yd hlt htg ih =>
    intro r h
    rw [walk] at h
    simp only [hlt, if_neg htg] at h
    rw [Option.map_eq_some'] at h
    obtain ⟨r0, hr0, hfr⟩ := h
    subst hfr
    have hlen := ih r0 hr0
    rw [emit_walk]
    simp only [hlt]
    simp
    omega
  | case5 x xd y yd hgt htg =>
    intro r h
    rw [walk] at h
    simp only [hgt, if_pos htg] at h
    exact Option.noConfusion h
  | case6 x xd y yd hgt htg ih =>
    intro r h
    rw [walk] at h
    simp only [hgt, if_neg htg] at h
    rw [Option.map_eq_some'] at h
    obtain ⟨r0, hr0, hfr⟩ := h
    subst hfr
    have hlen := ih r0 hr0
    rw [emit_walk]
    simp only [hgt]
    simp
    omega
  | case7 x xd y yd heq hcomp ih =>
    intro r h
    rw [walk] at h
    simp only [heq, if_pos hcomp] at h
    rw [Option.map_eq_some'] at h
    obtain ⟨r0, hr0, hfr⟩ := h
    subst hfr
    have hlen := ih r0 hr0
    rw [emit_walk]
    simp only [heq]
    simp
    omega
  | case8 x xd y yd heq hcomp =>
    intro r h
    rw [walk] at h
    simp only [heq, if_neg hcomp] at h
    exact Option.noConfusion h

theorem skip_x_emit (y : pos_t) (yd : List pos_t) :
    ∀ (rest : List pos_t) (x : pos_t), pos_cmp x y = cmp_t.LT →
      (emit_walk (x :: rest) (y :: yd)).length =
        (skip_x y (x :: rest)).1 +
          (emit_walk ((skip_x y (x :: rest)).2.1) (y :: yd)).length := by
  intro rest
  induction rest with
  | nil =>
    intro x hx
    rw [skip_x]
    simp
  | cons x2 rest2 ih =>
    intro x hx
    rw [emit_walk]
    simp only [hx]
    rw [skip_x]
    cases hc : pos_cmp x2 y with
    | LT =>
      have hlen := ih x2 hc
      simp only [hc]
      simp only [List.length_cons]
      omega
    | GT =>
      simp only [hc]
      simp only [List.length_cons]
      omega
    | EQ =>
      simp only [hc]
      simp only [List.length_cons]
      omega

theorem skip_y_emit (x : pos_t) (xd : List pos_t) :
    ∀ (rest : List pos_t) (y : pos_t), pos_cmp x y = cmp_t.GT →
      (emit_walk (x :: xd) (y :: rest)).length =
        (skip_y x (y :: rest)).1 +
          (emit_walk (x :: xd) ((skip_y x (y :: rest)).2.1)).length := by
  intro rest
  induction rest with
  | nil =>
    intro y hy
    rw [skip_y]
    simp
  | cons y2 rest2 ih =>
    intro y hy
    rw [emit_walk]
    simp only [hy]
    rw [skip_y]
    cases hc : pos_cmp x y2 with
    | GT =>
      have hlen := ih y2 hc
      simp only [hc]
      simp only [List.length_cons]
      omega
    | LT =>
      simp only [hc]
      simp only [List.length_cons]
      omega
    | EQ =>
      simp only [hc]
      simp only [List.length_cons]
      omega

theorem overhang_emit (tg : Bool) (xd yd : List pos_t) (skipped : Nat)
    (xd2 yd2 : List pos_t)
    (h : overhang tg xd yd = some (skipped, xd2, yd2)) :
    (emit_walk xd yd).length = skipped + (emit_walk xd2 yd2).length := by
  cases xd with
  | nil => simp [overhang] at h
  | cons x xd0 =>
    cases yd with
    | nil => simp [overhang] at h
    | cons y yd0 =>
      rw [overhang] at h
      cases hc : pos_cmp x y with
      | LT =>
        simp only [hc] at h
        split at h
        · exact Option.noConfusion h
        · simp only [Option.some.injEq, Prod.mk.injEq] at h
          obtain ⟨h1, h2, h3⟩ := h
          subst h1
          subst h2
          subst h3
          exact skip_x_emit y yd0 xd0 x hc
      | GT =>
        simp only [hc] at h
        split at h
        · exact Option.noConfusion h
        · simp only [Option.some.injEq, Prod.mk.injEq] at h
          obtain ⟨h1, h2, h3⟩ := h
          subst h1
          subst h2
          subst h3
          exact skip_y_emit x xd0 yd0 y hc
      | EQ =>
        simp only [hc] at h
        simp only [Option.some.injEq, Prod.mk.injEq] at h
        obtain ⟨h1, h2, h3⟩ := h
        subst h1
        subst h2
        subst h3
        simp

/-- Helper: inversion of a `SUCCESS` outcome of `merge_two` — the path taken
through the source: overhang disposal succeeded, the overlap walk succeeded,
the overlap met the threshold, and the allocation succeeded; `overlap` and
`mlen` are the values computed along that path. -/
theorem merge_two_success_inv (args : args_t) (xs ys : aligned_t)
    (allocOk : Bool) (h : (merge_two args xs ys allocOk).res = res_t.SUCCESS) :
    ∃ skipped xd yd ov steps xrem yrem,
      overhang args.tol_gaps xs.data ys.data = some (skipped, xd, yd) ∧
      walk args.tol_gaps args.tol_ambigs xd yd = some (ov, steps, xrem, yrem) ∧
      (merge_two args xs ys allocOk).overlap = ov ∧
      (merge_two args xs ys allocOk).mlen =
        skipped + steps + xrem.length + yrem.length ∧
      args.min_overlap ≤ (ov : Int) ∧ allocOk = true := by
  revert h
  unfold merge_two
  split
  · intro h
    exact absurd h (by simp [failOut])
  split
  · intro h
    exact absurd h (by simp [failOut])
  split
  · intro h
    exact absurd h (by simp [failOut])
  next skipped xd yd hov =>
    split
    · intro h
      exact absurd h (by simp [failOut])
    next ov steps xrem yrem hwalk =>
      split
      · intro h
        exact absurd h (by simp [failOut])
      next hminov =>
        split
        · intro h
          exact absurd h (by simp)
        next halloc =>
          intro h
          refine ⟨skipped, xd, yd, ov, steps, xrem, yrem, hov, hwalk, rfl,
            rfl, by omega, ?_⟩
          by_cases hb : allocOk
          · exact hb
          · exact absurd (by simp [hb] : ¬allocOk = true) halloc

/-- C10: whenever `merge_two` returns `SUCCESS`, the construction re-walk
emits exactly the predicted merged length: the merged data's length equals
`mlen`, the length computed by the first pass and stored into `merged.len`
to size the allocation, so every write lands in bounds and the post-fill
underfill/overfill diagnostic (merge.cpp lines 188-191) never fires. -/
theorem merged_fill_exact (args : args_t) (xs ys : aligned_t) (allocOk : Bool)
    (h : (merge_two args xs ys allocOk).res = res_t.SUCCESS) :
    ∃ m, (merge_two args xs ys allocOk).merged = some m ∧
      m.data.length = (merge_two args xs ys allocOk).mlen := by
  obtain ⟨m, hm, hdata, _, _, _⟩ := merge_two_success_fields args xs ys allocOk h
  obtain ⟨skipped, xd, yd, ov, steps, xrem, yrem, hov, hwalk, _, hmlen, _, _⟩ :=
    merge_two_success_inv args xs ys allocOk h
  refine ⟨m, hm, ?_⟩
  rw [hdata, hmlen]
  have h1 := overhang_emit args.tol_gaps xs.data ys.data skipped xd yd hov
  have h2 := walk_emit_length args.tol_gaps args.tol_ambigs xd yd
    (ov, steps, xrem, yrem) hwalk
  simp only [] at h2
  omega

/-- Witness for C10 at the concrete mergeable pair. -/
theorem merged_fill_exact_inst :
    ∃ m, (merge_two argsA xsA ysA true).merged = some m ∧
      m.data.length = (merge_two argsA xsA ysA true).mlen :=
  merged_fill_exact argsA xsA ysA true (by rw [mergeA_eval])

/-- Modelled from the spec's words for claim C3: the "maximal achievable
number of compatible overlapping positions" of two position sequences — the
length of a longest pair of monotone index matchings whose matched records
compare `EQ` under `pos_cmp` with compatible nucleotide codes (the most
overlap any lockstep walk could count). -/
def maxCompat (ta : Bool) : List pos_t → List pos_t → Nat
  | [], _ => 0
  | _ :: _, [] => 0
  | x :: xd, y :: yd =>
    let rest := max (maxCompat ta xd (y :: yd)) (maxCompat ta (x :: xd) yd)
    if pos_cmp x y = cmp_t.EQ ∧ nuc_compat ta x.nuc y.nuc then
      max (maxCompat ta xd yd + 1) rest
    else rest
termination_by xd yd => xd.length + yd.length

theorem maxCompat_nil_right (ta : Bool) (xd : List pos_t) :
    maxCompat ta xd [] = 0 := by
  cases xd <;> simp [maxCompat]

theorem maxCompat_cons_left (ta : Bool) (x : pos_t) (xd yd : List pos_t) :
    maxCompat ta xd yd ≤ maxCompat ta (x :: xd) yd := by
  cases yd with
  | nil => simp [maxCompat_nil_right]
  | cons y yd0 =>
    rw [maxCompat]
    split
    · exact le_trans (le_max_left _ _) (le_max_right _ _)
    · exact le_max_left _ _

theorem maxCompat_cons_right (ta : Bool) (y : pos_t) (xd yd : List pos_t) :
    maxCompat ta xd yd ≤ maxCompat ta xd (y :: yd) := by
  cases xd with
  | nil => simp [maxCompat]
  | cons x xd0 =>
    rw [maxCompat]
    split
    · exact le_trans (le_max_right _ _) (le_max_right _ _)
    · exact le_max_right _ _

theorem walk_overlap_le (tg ta : Bool) : ∀ (xd yd : List pos_t)
    (r : Nat × Nat × List pos_t × List pos_t), walk tg ta xd yd = some r →
    r.1 ≤ maxCompat ta xd yd := by
  intro xd0 yd0
  induction xd0, yd0 using walk.induct tg ta with
  | case1 yd =>
    intro r h
    rw [walk] at h
    cases Option.some.inj h
    exact Nat.zero_le _
  | case2 x xd =>
    intro r h
    rw [walk] at h
    cases Option.some.inj h
    exact Nat.zero_le _
  | case3 x xd y yd hlt htg =>
    intro r h
    rw [walk] at h
    simp only [hlt, if_pos htg] at h
    exact Option.noConfusion h
  | case4 x xd y yd hlt htg ih =>
    intro r h
    rw [walk] at h
    simp only [hlt, if_neg htg] at h
    rw [Option.map_eq_some'] at h
    obtain ⟨r0, hr0, hfr⟩ := h
    subst hfr
    exact le_trans (ih r0 hr0) (maxCompat_cons_left ta x xd (y :: yd))
  | case5 x xd y yd hgt htg =>
    intro r h
    rw [walk] at h
    simp only [hgt, if_pos htg] at h
    exact Option.noConfusion h
  | case6 x xd y yd hgt htg ih =>
    intro r h
    rw [walk] at h
    simp only [hgt, if_neg htg] at h
    rw [Option.map_eq_some'] at h
    obtain ⟨r0, hr0, hfr⟩ := h
    subst hfr
    exact le_trans (ih r0 hr0) (maxCompat_cons_right ta y (x :: xd) yd)
  | case7 x xd y yd heq hcomp ih =>
    intro r h
    rw [walk] at h
    simp only [heq, if_pos hcomp] at h
    rw [Option.map_eq_some'] at h
    obtain ⟨r0, hr0, hfr⟩ := h
    subst hfr
    rw [maxCompat]
    rw [if_pos ⟨heq, hcomp⟩]
    exact le_trans (Nat.succ_le_succ (ih r0 hr0)) (le_max_left _ _)
  | case8 x xd y yd heq hcomp =>
    intro r h
    rw [walk] at h
    simp only [heq, if_neg hcomp] at h
    exact Option.noConfusion h

theorem skip_x_maxCompat (ta : Bool) (y : pos_t) (yd : List pos_t) :
    ∀ (rest : List pos_t) (x : pos_t),
      maxCompat ta (skip_x y (x :: rest)).2.1 (y :: yd) ≤
        maxCompat ta (x :: rest) (y :: yd) := by
  intro rest
  induction rest with
  | nil =>
    intro x
    rw [skip_x]
  | cons x2 rest2 ih =>
    intro x
    rw [skip_x]
    cases hc : pos_cmp x2 y with
    | LT =>
      simp only [hc]
      exact le_trans (ih x2) (maxCompat_cons_left ta x (x2 :: rest2) (y :: yd))
    | GT =>
      simp only [hc]
      exact maxCompat_cons_left ta x (x2 :: rest2) (y :: yd)
    | EQ =>
      simp only [hc]
      exact maxCompat_cons_left ta x (x2 :: rest2) (y :: yd)

theorem skip_y_maxCompat (ta : Bool) (x : pos_t) (xd : List pos_t) :
    ∀ (rest : List pos_t) (y : pos_t),
      maxCompat ta (x :: xd) (skip_y x (y :: rest)).2.1 ≤
        maxCompat ta (x :: xd) (y :: rest) := by
  intro rest
  induction rest with
  | nil =>
    intro y
    rw [skip_y]
  | cons y2 rest2 ih =>
    intro y
    rw [skip_y]
    cases hc : pos_cmp x y2 with
    | GT =>
      simp only [hc]
      exact le_trans (ih y2) (maxCompat_cons_right ta y (x :: xd) (y2 :: rest2))
    | LT =>
      simp only [hc]
      exact maxCompat_cons_right ta y (x :: xd) (y2 :: rest2)
    | EQ =>
      simp only [hc]
      exact maxCompat_cons_right ta y (x :: xd) (y2 :: rest2)

theorem overhang_maxCompat (ta tg : Bool) (xd yd : List pos_t) (skipped : Nat)
    (xd2 yd2 : List pos_t)
    (h : overhang tg xd yd = some (skipped, xd2, yd2)) :
    maxCompat ta xd2 yd2 ≤ maxCompat ta xd yd := by
  cases xd with
  | nil => simp [overhang] at h
  | cons x xd0 =>
    cases yd with
    | nil => simp [overhang] at h
    | cons y yd0 =>
      rw [overhang] at h
      cases hc : pos_cmp x y with
      | LT =>
        simp only [hc] at h
        split at h
        · exact Option.noConfusion h
        · simp only [Option.some.injEq, Prod.mk.injEq] at h
          obtain ⟨h1, h2, h3⟩ := h
          subst h1
          subst h2
          subst h3
          exact skip_x_maxCompat ta y yd0 xd0 x
      | GT =>
        simp only [hc] at h
        split at h
        · exact Option.noConfusion h
        · simp only [Option.some.injEq, Prod.mk.injEq] at h
          obtain ⟨h1, h2, h3⟩ := h
          subst h1
          subst h2
          subst h3
          exact skip_y_maxCompat ta x xd0 yd0 y
      | EQ =>
        simp only [hc] at h
        simp only [Option.some.injEq, Prod.mk.injEq] at h
        obtain ⟨h1, h2, h3⟩ := h
        subst h1
        subst h2
        subst h3
        exact le_refl _

/-- C3: for non-empty clusters, a `SUCCESS` of `merge_two` means the overlap
counter it computed reached `min_overlap`; conversely any pair whose maximal
achievable number of compatible overlapping positions (`maxCompat`) is below
`min_overlap` gets `FAILURE` (NoMatch), through whichever abort path. -/
theorem overlap_threshold (args : args_t) (xs ys : aligned_t) (allocOk : Bool)
    (hx : xs.data ≠ []) (hy : ys.data ≠ []) :
    ((merge_two args xs ys allocOk).res = res_t.SUCCESS →
      args.min_overlap ≤ ((merge_two args xs ys allocOk).overlap : Int)) ∧
    ((maxCompat args.tol_ambigs xs.data ys.data : Int) < args.min_overlap →
      (merge_two args xs ys allocOk).res = res_t.FAILURE) := by
  constructor
  · intro h
    obtain ⟨sk, xd, yd, ov, steps, xr, yr, hov, hwalk, hoveq, hmleneq, hmin, halloc⟩ :=
      merge_two_success_inv args xs ys allocOk h
    rw [hoveq]
    exact hmin
  · intro hlt
    cases hres : (merge_two args xs ys allocOk).res with
    | FAILURE => rfl
    | ERROR => exact absurd hres (merge_two_ne_error args xs ys allocOk)
    | SUCCESS =>
      exfalso
      obtain ⟨sk, xd, yd, ov, steps, xr, yr, hov, hwalk, hoveq, hmleneq, hmin, halloc⟩ :=
        merge_two_success_inv args xs ys allocOk hres
      have h1 : ov ≤ maxCompat args.tol_ambigs xd yd :=
        walk_overlap_le args.tol_gaps args.tol_ambigs xd yd (ov, steps, xr, yr) hwalk
      have h2 := overhang_maxCompat args.tol_ambigs args.tol_gaps xs.data ys.data
        sk xd yd hov
      have h3 : (ov : Int) ≤ (maxCompat args.tol_ambigs xs.data ys.data : Int) := by
        exact_mod_cast le_trans h1 h2
      omega

/-- Witness for C3 at the concrete mergeable pair. -/
theorem overlap_threshold_inst :
    ((merge_two argsA xsA ysA true).res = res_t.SUCCESS →
      argsA.min_overlap ≤ ((merge_two argsA xsA ysA true).overlap : Int)) ∧
    ((maxCompat argsA.tol_ambigs xsA.data ysA.data : Int) < argsA.min_overlap →
      (merge_two argsA xsA ysA true).res = res_t.FAILURE) :=
  overlap_threshold argsA xsA ysA true (by decide) (by decide)

theorem emit_walk_mem : ∀ (xd yd : List pos_t), ∀ r ∈ emit_walk xd yd,
    r ∈ xd ∨ r ∈ yd ∨
      ∃ x ∈ xd, ∃ y ∈ yd, pos_cmp x y = cmp_t.EQ ∧ r = merge_rec x y := by
  intro xd0 yd0
  induction xd0, yd0 using emit_walk.induct with
  | case1 yd =>
    intro r hr
    rw [emit_walk] at hr
    exact Or.inr (Or.inl hr)
  | case2 x xd =>
    intro r hr
    rw [emit_walk] at hr
    exact Or.inl hr
  | case3 x xd y yd hlt ih =>
    intro r hr
    rw [emit_walk] at hr
    simp only [hlt] at hr
    rcases List.mem_cons.mp hr with h | h
    · exact Or.inl (by simp [h])
    · rcases ih r h with h2 | h2 | ⟨a, ha, b, hb, hab, hr2⟩
      · exact Or.inl (List.mem_cons_of_mem _ h2)
      · exact Or.inr (Or.inl h2)
      · exact Or.inr (Or.inr ⟨a, List.mem_cons_of_mem _ ha, b, hb, hab, hr2⟩)
  | case4 x xd y yd hgt ih =>
    intro r hr
    rw [emit_walk] at hr
    simp only [hgt] at hr
    rcases List.mem_cons.mp hr with h | h
    · exact Or.inr (Or.inl (by simp [h]))
    · rcases ih r h with h2 | h2 | ⟨a, ha, b, hb, hab, hr2⟩
      · exact Or.inl h2
      · exact Or.inr (Or.inl (List.mem_cons_of_mem _ h2))
      · exact Or.inr (Or.inr ⟨a, ha, b, List.mem_cons_of_mem _ hb, hab, hr2⟩)
  | case5 x xd y yd heqc ih =>
    intro r hr
    rw [emit_walk] at hr
    simp only [heqc] at hr
    rcases List.mem_cons.mp hr with h | h
    · exact Or.inr (Or.inr ⟨x, List.mem_cons_self _ _, y, List.mem_cons_self _ _,
        heqc, h⟩)
    · rcases ih r h with h2 | h2 | ⟨a, ha, b, hb, hab, hr2⟩
      · exact Or.inl (List.mem_cons_of_mem _ h2)
      · exact Or.inr (Or.inl (List.mem_cons_of_mem _ h2))
      · exact Or.inr (Or.inr ⟨a, List.mem_cons_of_mem _ ha, b,
          List.mem_cons_of_mem _ hb, hab, hr2⟩)

/-- C5: on `SUCCESS` the merged data is exactly the construction re-walk's
output; coinciding positions (comparing `EQ` under `pos_cmp`) are emitted as
the x-side record with coverage summed and nucleotide the plain numeric
minimum of the two masks (not their intersection); a record emitted while one
side leads, and the tail once one side is exhausted, are copied unchanged;
and every emitted record is an unchanged input record or such a combination.
-/
theorem merged_record_content (args : args_t) (xs ys : aligned_t)
    (allocOk : Bool) (m : aligned_t)
    (h : (merge_two args xs ys allocOk).res = res_t.SUCCESS)
    (hm : (merge_two args xs ys allocOk).merged = some m) :
    m.data = emit_walk xs.data ys.data ∧
    (∀ (x y : pos_t) (xd yd : List pos_t), pos_cmp x y = cmp_t.EQ →
      emit_walk (x :: xd) (y :: yd) =
        { x with cov := x.cov + y.cov, nuc := min x.nuc y.nuc } ::
          emit_walk xd yd) ∧
    (∀ (x y : pos_t) (xd yd : List pos_t), pos_cmp x y = cmp_t.LT →
      emit_walk (x :: xd) (y :: yd) = x :: emit_walk xd (y :: yd)) ∧
    (∀ (x y : pos_t) (xd yd : List pos_t), pos_cmp x y = cmp_t.GT →
      emit_walk (x :: xd) (y :: yd) = y :: emit_walk (x :: xd) yd) ∧
    (∀ xd : List pos_t, emit_walk xd [] = xd) ∧
    (∀ yd : List pos_t, emit_walk [] yd = yd) ∧
    (∀ r ∈ m.data, r ∈ xs.data ∨ r ∈ ys.data ∨
      ∃ x ∈ xs.data, ∃ y ∈ ys.data, pos_cmp x y = cmp_t.EQ ∧
        r.col = x.col ∧ r.ins = x.ins ∧ r.cov = x.cov + y.cov ∧
        r.nuc = min x.nuc y.nuc) := by
  obtain ⟨m2, hm2, hdata, _, _, _⟩ := merge_two_success_fields args xs ys allocOk h
  rw [hm] at hm2
  cases Option.some.inj hm2
  refine ⟨hdata, ?_, ?_, ?_, ?_, ?_, ?_⟩
  · intro x y xd yd hc
    rw [emit_walk]
    simp [hc, merge_rec]
  · intro x y xd yd hc
    rw [emit_walk]
    simp [hc]
  · intro x y xd yd hc
    rw [emit_walk]
    simp [hc]
  · intro xd
    cases xd <;> rw [emit_walk]
  · intro yd
    rw [emit_walk]
  · intro r hr
    rw [hdata] at hr
    rcases emit_walk_mem xs.data ys.data r hr with h2 | h2 | ⟨a, ha, b, hb, hab, hr2⟩
    · exact Or.inl h2
    · exact Or.inr (Or.inl h2)
    · subst hr2
      exact Or.inr (Or.inr ⟨a, ha, b, hb, hab, rfl, rfl, rfl, rfl⟩)

/-- Witness for C5 at the concrete mergeable pair. -/
theorem merged_record_content_inst :
    mA.data = emit_walk xsA.data ysA.data ∧
    (∀ (x y : pos_t) (xd yd : List pos_t), pos_cmp x y = cmp_t.EQ →
      emit_walk (x :: xd) (y :: yd) =
        { x with cov := x.cov + y.cov, nuc := min x.nuc y.nuc } ::
          emit_walk xd yd) ∧
    (∀ (x y : pos_t) (xd yd : List pos_t), pos_cmp x y = cmp_t.LT →
      emit_walk (x :: xd) (y :: yd) = x :: emit_walk xd (y :: yd)) ∧
    (∀ (x y : pos_t) (xd yd : List pos_t), pos_cmp x y = cmp_t.GT →
      emit_walk (x :: xd) (y :: yd) = y :: emit_walk (x :: xd) yd) ∧
    (∀ xd : List pos_t, emit_walk xd [] = xd) ∧
    (∀ yd : List pos_t, emit_walk [] yd = yd) ∧
    (∀ r ∈ mA.data, r ∈ xsA.data ∨ r ∈ ysA.data ∨
      ∃ x ∈ xsA.data, ∃ y ∈ ysA.data, pos_cmp x y = cmp_t.EQ ∧
        r.col = x.col ∧ r.ins = x.ins ∧ r.cov = x.cov + y.cov ∧
        r.nuc = min x.nuc y.nuc) :=
  merged_record_content argsA xsA ysA true mA
    (by rw [mergeA_eval]) (by rw [mergeA_eval])
